import Mathlib

/-!
Verification of the SwathCoverage analytical pipeline
(libs/swath_coverage_lib.py) against its specification.

The numeric core of the library is embedded shallowly below:
machine floats are modelled as rationals, NaN propagation is modelled
with `Option ℚ` (a `none` stands for NaN), and the Python lists held in
the detection dictionary become Lean lists.
-/

namespace SwathCoverage

/-! ### File formats and detection-code validity

From sortDetectionsCoverage:
  det_int_threshold = [127, 0][key_idx]  (.all < 128 is valid, .kmall == 0)
and the scan advances while det_int[idx] > det_int_threshold.
Detection codes are unsigned in both datagram formats, so they are
modelled as naturals. -/

inductive FileType where
  | all : FileType
  | kmall : FileType

/-- threshold for valid sounding (.all < 128 and .kmall == 0) -/
def det_int_threshold : FileType → ℕ
  | .all => 127
  | .kmall => 0

/-- The validity test as the spec words it: a code is valid when it is
below 128 for a .all file and equal to 0 for a .kmall file. -/
def validPerSpec : FileType → ℕ → Prop
  | .all, c => c < 128
  | .kmall, c => c = 0

instance (ft : FileType) (c : ℕ) : Decidable (validPerSpec ft c) :=
  match ft with
  | .all => inferInstanceAs (Decidable (c < 128))
  | .kmall => inferInstanceAs (Decidable (c = 0))

/-- Forward scan of sortDetectionsCoverage:
  idx_port = 0
  while det_int[idx_port] > det_int_threshold and idx_port < len(det_int) - 1:
      idx_port = idx_port + 1
The loop advances past an invalid code unless it already stands at the
last index; it is embedded structurally on the remaining suffix. -/
def portScan (thr : ℕ) : List ℕ → ℕ
  | [] => 0
  | [_] => 0
  | c :: c2 :: rest => if thr < c then portScan thr (c2 :: rest) + 1 else 0

/-- idx_port of sortDetectionsCoverage. -/
def idx_port (thr : ℕ) (det_int : List ℕ) : ℕ := portScan thr det_int

/-- Backward scan of sortDetectionsCoverage:
  idx_stbd = len(det_int) - 1
  while det_int[idx_stbd] > det_int_threshold and idx_stbd > 0:
      idx_stbd = idx_stbd - 1
Walking backward from the last index is the forward walk over the
reversed list, so the embedding reuses portScan on the reversal. -/
def idx_stbd (thr : ℕ) (det_int : List ℕ) : ℕ :=
  det_int.length - 1 - portScan thr det_int.reverse

/-! ### Detection record built per ping (C10)

From sortDetectionsCoverage, the else-branch of the ping loop: the two
outermost indices are found by the scans above and the swath data are
appended unconditionally (the all-invalid guard in the source is
commented out, so no ping is skipped). Backscatter is multiplied by
bs_scale = [0.1, 1][key_idx]. -/

/-- Per-ping arrays of the XYZ datagram used by sortDetectionsCoverage. -/
structure PingXYZ where
  det_int : List ℕ
  across : List ℚ
  depth : List ℚ
  bs : List ℚ
  angle : List ℚ

/-- backscatter scale in X dB; multiply parsed value by this factor for dB -/
def bs_scale : FileType → ℚ
  | .all => 1 / 10
  | .kmall => 1

/-- One entry of the detection dictionary (the port/stbd swath fields). -/
structure DetEntry where
  y_port : ℚ
  y_stbd : ℚ
  z_port : ℚ
  z_stbd : ℚ
  bs_port : ℚ
  bs_stbd : ℚ
  rx_angle_port : ℚ
  rx_angle_stbd : ℚ
  deriving DecidableEq

/-- The record appended for one ping by sortDetectionsCoverage (non
params_only branch): index with idx_port/idx_stbd into the across,
depth, backscatter and angle arrays of the ping. -/
def sortPing (ft : FileType) (p : PingXYZ) : DetEntry :=
  let thr := det_int_threshold ft
  let ip := idx_port thr p.det_int
  let is0 := idx_stbd thr p.det_int
  { y_port := p.across.getD ip 0
    y_stbd := p.across.getD is0 0
    z_port := p.depth.getD ip 0
    z_stbd := p.depth.getD is0 0
    bs_port := p.bs.getD ip 0 * bs_scale ft
    bs_stbd := p.bs.getD is0 0 * bs_scale ft
    rx_angle_port := p.angle.getD ip 0
    rx_angle_stbd := p.angle.getD is0 0 }

/-! ### Runtime-parameter filter masks of plot_coverage (C2, C9)

In plot_coverage every detection-dictionary field is a Python list, and
the sounding vectors are the port and stbd halves concatenated:
  y_all = det["y_port"] + det["y_stbd"]
so each per-sounding vector has length 2 x pings.  The expressions
  np.asarray(2 * det["max_port_deg"]) + self.rtp_angle_buffer
repeat the per-ping limit list (Python list repetition), aligning one
copy of the limits with the port soundings and one with the stbd
soundings; the numeric limit value itself is not doubled. -/

/-- Runtime swath-angle mask (rtp_angle_idx), fields available:
  rtp_angle_idx_port = angle_all <= 2 * max_port_deg + buffer
  rtp_angle_idx_stbd = angle_all >= -1 * (2 * max_stbd_deg) - buffer
  rtp_angle_idx = logical_and of the two,
with 2 * list meaning list repetition. -/
def rtp_angle_mask (angle_all maxPortDeg maxStbdDeg : List ℚ)
    (buffer : ℚ) : List Bool :=
  let portLims := maxPortDeg ++ maxPortDeg
  let stbdLims := maxStbdDeg ++ maxStbdDeg
  List.zipWith and
    (List.zipWith (fun a lim => decide (a ≤ lim + buffer)) angle_all portLims)
    (List.zipWith (fun a lim => decide (-lim - buffer ≤ a)) angle_all stbdLims)

/-- Runtime coverage mask (rtp_cov_idx), fields available:
  rtp_cov_idx_port = y_all >= -1 * (2 * max_port_m) - buffer
  rtp_cov_idx_stbd = y_all <= 2 * max_stbd_m + buffer
  rtp_cov_idx = logical_and of the two. -/
def rtp_cov_mask (y_all maxPortM maxStbdM : List ℚ) (buffer : ℚ) : List Bool :=
  let portLims := maxPortM ++ maxPortM
  let stbdLims := maxStbdM ++ maxStbdM
  List.zipWith and
    (List.zipWith (fun y lim => decide (-lim - buffer ≤ y)) y_all portLims)
    (List.zipWith (fun y lim => decide (y ≤ lim + buffer)) y_all stbdLims)

/-- The runtime-angle mask as the claim words it (refinement comparison
definition following the spec words): the threshold is numerically twice
the runtime limit of the sounding, plus the signed buffer. -/
def rtp_angle_mask_claim (angle_all maxPortDeg maxStbdDeg : List ℚ)
    (buffer : ℚ) : List Bool :=
  let portLims := (maxPortDeg ++ maxPortDeg).map (fun v => 2 * v)
  let stbdLims := (maxStbdDeg ++ maxStbdDeg).map (fun v => 2 * v)
  List.zipWith and
    (List.zipWith (fun a lim => decide (a ≤ lim + buffer)) angle_all portLims)
    (List.zipWith (fun a lim => decide (-lim - buffer ≤ a)) angle_all stbdLims)

/-- The runtime-coverage mask as the claim words it (refinement
comparison definition following the spec words): threshold twice the
runtime coverage limit plus the buffer. -/
def rtp_cov_mask_claim (y_all maxPortM maxStbdM : List ℚ)
    (buffer : ℚ) : List Bool :=
  let portLims := (maxPortM ++ maxPortM).map (fun v => 2 * v)
  let stbdLims := (maxStbdM ++ maxStbdM).map (fun v => 2 * v)
  List.zipWith and
    (List.zipWith (fun y lim => decide (-lim - buffer ≤ y)) y_all portLims)
    (List.zipWith (fun y lim => decide (y ≤ lim + buffer)) y_all stbdLims)

/-- The runtime-parameter fields of a detection dictionary; each is
optional because legacy archives may lack it (the `in det` checks of
plot_coverage). -/
structure DetRuntime where
  max_port_deg : Option (List ℚ)
  max_stbd_deg : Option (List ℚ)
  max_port_m : Option (List ℚ)
  max_stbd_m : Option (List ℚ)

/-- The rtp_angle_gb branch of plot_coverage: when both runtime fields
are present the mask is computed; otherwise update_log emits a warning
and the mask keeps its initialisation np.ones(idx_shape).  Returns the
mask together with whether the warning was logged. -/
def rtp_angle_filter (rt : DetRuntime) (angle_all : List ℚ) (buffer : ℚ)
    (n2 : ℕ) : List Bool × Bool :=
  match rt.max_port_deg, rt.max_stbd_deg with
  | some pl, some sl => (rtp_angle_mask angle_all pl sl buffer, false)
  | _, _ => (List.replicate n2 true, true)

/-- The rtp_cov_gb branch of plot_coverage, analogous to
rtp_angle_filter. -/
def rtp_cov_filter (rt : DetRuntime) (y_all : List ℚ) (buffer : ℚ)
    (n2 : ℕ) : List Bool × Bool :=
  match rt.max_port_m, rt.max_stbd_m with
  | some pl, some sl => (rtp_cov_mask y_all pl sl buffer, false)
  | _, _ => (List.replicate n2 true, true)

/-- filter_idx = np.logical_and.reduce((angle_idx, depth_idx, bs_idx,
rtp_angle_idx, rtp_cov_idx, real_idx)) -/
def filter_idx (angle_idx depth_idx bs_idx rtp_angle_idx rtp_cov_idx
    real_idx : List Bool) : List Bool :=
  List.zipWith and
    (List.zipWith and
      (List.zipWith and
        (List.zipWith and (List.zipWith and angle_idx depth_idx) bs_idx)
        rtp_angle_idx)
      rtp_cov_idx)
    real_idx

/-! ### Decimation of plot_coverage (C3, C7)

  if self.n_points_max == 0: self.dec_fac_default = np.inf
  else: self.dec_fac_default = float(self.n_points / self.n_points_max)
  self.dec_fac_user = max(checked * float(self.dec_fac_tb.text()), 1)
  self.dec_fac = max(self.dec_fac_default, self.dec_fac_user)
  if self.dec_fac > 1:
      idx_all = np.arange(len(y_all))
      idx_dec = np.arange(0, len(y_all) - 1, self.dec_fac)
      f_dec = interp1d(idx_all, idx_all, kind="nearest")
      idx_new = [int(i) for i in f_dec(idx_dec)]
An infinite factor is modelled by `none`; the embedding below assumes
the point-count group box is checked, so n_points_max and the user
factor are the text-box values. -/

/-- dec_fac_default: count / n_points_max, or infinite (none) when
n_points_max == 0; the source guards the division explicitly. -/
def dec_fac_default (count : ℕ) (maxPoints : ℚ) : Option ℚ :=
  if maxPoints = 0 then none else some ((count : ℚ) / maxPoints)

/-- dec_fac_user = max(user factor, 1). -/
def dec_fac_user (user : ℚ) : ℚ := max user 1

/-- dec_fac = max(dec_fac_default, dec_fac_user); the maximum of np.inf
and a finite value is np.inf. -/
def dec_fac (count : ℕ) (maxPoints user : ℚ) : Option ℚ :=
  match dec_fac_default count maxPoints with
  | none => none
  | some d => some (max d (dec_fac_user user))

/-- Length of np.arange(0, stop, step) for positive step:
ceil(stop / step), clamped at zero; an infinite step yields
ceil(stop / inf) = 0. -/
def arangeLen (stop step : ℚ) : ℕ := (Int.toNat ⌈stop / step⌉)

/-- np.arange(0, count - 1, f): evenly spaced target positions k * f
across [0, count - 1). -/
def idx_dec (count : ℕ) (f : ℚ) : List ℚ :=
  (List.range (arangeLen ((count : ℚ) - 1) f)).map (fun k : ℕ => (k : ℚ) * f)

/-- interp1d(idx_all, idx_all, kind="nearest") evaluated at x: nearest
integer grid index, half-integers rounding down (scipy "nearest" uses
searchsorted side left over the midpoints), followed by int(). -/
def nearestIdx (x : ℚ) : ℕ := (Int.toNat ⌈x - 1 / 2⌉)

/-- The decimated index list for a finite factor greater than one. -/
def selectIndicesF (count : ℕ) (f : ℚ) : List ℕ :=
  (idx_dec count f).map nearestIdx

/-- The indices of the points kept by the decimation step: identity when
dec_fac <= 1 (the `if self.dec_fac > 1` guard skips decimation), the
nearest-neighbor selection otherwise, and the empty selection for an
infinite factor (np.arange with an infinite step is empty). -/
def selectIndices (count : ℕ) (fac : Option ℚ) : List ℕ :=
  match fac with
  | none => []
  | some f => if 1 < f then selectIndicesF count f else List.range count

/-! ### Data-rate reconstruction of plot_data_rate (C4, C5, C8)

NaN is modelled by `none`; every numpy elementwise operation propagates
it.  dt_s is the inter-ping time-difference series with a NaN at index
0; the embedding quantifies over arbitrary Option-valued series. -/

/-- dt_s_final_safe before interpolation: zero, negative and NaN time
differences are set to NaN. -/
def nanSafe (dt : List (Option ℚ)) : List (Option ℚ) :=
  dt.map (fun o => match o with
    | some x => if x ≤ 0 then none else some x
    | none => none)

/-- Number of NaN entries (np.sum(np.isnan(...))). -/
def countNone (l : List (Option ℚ)) : ℕ := l.countP (fun o => o.isNone)

/-- Number of valid entries (np.sum(valid_time_mask)). -/
def countSome (l : List (Option ℚ)) : ℕ := l.countP (fun o => o.isSome)

/-- Largest index j <= i holding a valid value, with that value. -/
def prevValid (l : List (Option ℚ)) : ℕ → Option (ℕ × ℚ)
  | 0 => (l.getD 0 none).map (fun v => (0, v))
  | j + 1 =>
      match l.getD (j + 1) none with
      | some v => some (j + 1, v)
      | none => prevValid l j

/-- Smallest index j >= i (within the list) holding a valid value. -/
def nextValid (l : List (Option ℚ)) (i : ℕ) : Option (ℕ × ℚ) :=
  match (l.drop i).findIdx? (fun o => o.isSome) with
  | some k => (l.getD (i + k) none).map (fun v => (i + k, v))
  | none => none

/-- interp1d(valid_indices, valid_times, kind="linear",
bounds_error=False, fill_value=np.nan) evaluated at index i: linear
interpolation between the surrounding valid knots, NaN outside them. -/
def interpAt (l : List (Option ℚ)) (i : ℕ) : Option ℚ :=
  match prevValid l i, nextValid l i with
  | some (j, vj), some (k, vk) =>
      if j = k then some vj
      else some (vj + (vk - vj) * ((i : ℚ) - (j : ℚ)) / ((k : ℚ) - (j : ℚ)))
  | _, _ => none

/-- dt_s_final_safe = f_interp(all_indices). -/
def interpFill (l : List (Option ℚ)) : List (Option ℚ) :=
  (List.range l.length).map (interpAt l)

/-- The safe time-difference series: when more than 50 percent of the
entries are NaN and at least two are valid the series is linearly
interpolated (with fewer than two valid knots interp1d raises and the
except block leaves the series unchanged). -/
def dt_s_final_safe (dt : List (Option ℚ)) : List (Option ℚ) :=
  let s := nanSafe dt
  if 2 * countNone s > s.length ∧ 2 ≤ countSome s then interpFill s else s

/-- ratio[i] = dt_s_final_safe[i+1] / dt_s_final_safe[i], NaN unless
both entries are valid and the denominator is nonzero. -/
def ratioList (s : List (Option ℚ)) : List (Option ℚ) :=
  List.zipWith (fun next prev =>
    match next, prev with
    | some nv, some pv => if pv = 0 then none else some (nv / pv)
    | _, _ => none) (s.drop 1) s

/-- idx_swath_2 = np.append(False, np.less(ratio, 0.1)): a NaN ratio
compares as not-less. -/
def idx_swath_2 (dt : List (Option ℚ)) : List Bool :=
  false :: (ratioList (dt_s_final_safe dt)).map (fun o =>
    match o with
    | some r => decide (r < 1 / 10)
    | none => false)

/-- Elementwise product with a 0/1 indicator; NaN times zero is NaN. -/
def optMulMask (o : Option ℚ) (b : Bool) : Option ℚ :=
  o.map (fun x => if b then x else 0)

/-- Elementwise sum with NaN propagation. -/
def optAdd : Option ℚ → Option ℚ → Option ℚ
  | some a, some b => some (a + b)
  | _, _ => none

/-- The backward fold of second-swath contributions into the preceding
ping: vals * idx_swath_1 + append((vals * idx_swath_2)[1:], 0). -/
def cycleFold (vals : List (Option ℚ)) (i2 : List Bool) : List (Option ℚ) :=
  let sw2 := List.zipWith optMulMask vals i2
  let sw1 := List.zipWith optMulMask vals (i2.map (fun b => !b))
  List.zipWith optAdd sw1 (sw2.drop 1 ++ [some 0])

/-- ping_int_bytes: bytes of one ping cycle. -/
def ping_int_bytes (bytes dt : List (Option ℚ)) : List (Option ℚ) :=
  cycleFold bytes (idx_swath_2 dt)

/-- ping_int_time: duration of one ping cycle (built from the raw
dt_s_final, not the safe series). -/
def ping_int_time (dt : List (Option ℚ)) : List (Option ℚ) :=
  cycleFold dt (idx_swath_2 dt)

/-- ping_int_dr = np.divide(bytes, time, out=nan, where=time != 0) *
3600 / 1e6: the rate is NaN when the cycle time is zero (the where mask
leaves the NaN out-value) or when either operand is NaN. -/
def ping_int_dr (bytes dt : List (Option ℚ)) : List (Option ℚ) :=
  List.zipWith (fun b t =>
    match b, t with
    | some bv, some tv =>
        if tv = 0 then none else some (bv / tv * 3600 / 1000000)
    | _, _ => none) (ping_int_bytes bytes dt) (ping_int_time dt)

/-- np.nanmean over a window, with the all-NaN guard of the source:
mean of the valid entries, NaN when there are none. -/
def nanmean (l : List (Option ℚ)) : Option ℚ :=
  let v := l.filterMap id
  if v.length = 0 then none else some (v.sum / (v.length : ℚ))

/-- dr_smoothed = [nanmean(dr[i:i+window_len]) if not all NaN else NaN
for i in range(len(dr))], window_len = min(100, len(dr)). -/
def dr_smoothed (dr : List (Option ℚ)) : List (Option ℚ) :=
  let w := min 100 dr.length
  (List.range dr.length).map (fun i => nanmean ((dr.drop i).take w))

/-- The smoothing as the claim words it (refinement comparison
definition following the spec words): a trailing rolling mean, the
window at index i covering the w entries ending at i. -/
def dr_smoothed_trailing_claim (dr : List (Option ℚ)) : List (Option ℚ) :=
  let w := min 100 dr.length
  (List.range dr.length).map (fun i => nanmean ((dr.take (i + 1)).drop (i + 1 - w)))

/-! ### Depth-binned coverage trend of calc_coverage_trend (C6) -/

/-- Python min over a non-empty list (the empty case is unreachable in
the source, which raises there). -/
def pyMin : List ℚ → ℚ
  | [] => 0
  | x :: xs => xs.foldl min x

/-- Python max over a non-empty list. -/
def pyMax : List ℚ → ℚ
  | [] => 0
  | x :: xs => xs.foldl max x

/-- np.linspace(a, b, 11): eleven evenly spaced edges from a to b. -/
def linspace11 (a b : ℚ) : List ℚ :=
  (List.range 11).map (fun i : ℕ => a + (b - a) * (i : ℚ) / 10)

/-- bins = np.linspace(min(z_all), max(z_all), 11). -/
def bins_of (z : List ℚ) : List ℚ := linspace11 (pyMin z) (pyMax z)

/-- np.diff: successive differences. -/
def npDiff (l : List ℚ) : List ℚ :=
  List.zipWith (fun b a => b - a) (l.drop 1) l

/-- dz = np.mean(np.diff(bins)). -/
def dz_of (z : List ℚ) : ℚ :=
  let d := npDiff (bins_of z)
  d.sum / (d.length : ℚ)

/-- np.digitize(x, bins) for monotonically increasing bins: the number
of edges not exceeding x (searchsorted side right). -/
def digitize (bins : List ℚ) (x : ℚ) : ℕ :=
  bins.countP (fun b => decide (b ≤ x))

/-- trend_bin_means = [y_all_abs[z_all_dig == i].mean() for i in
range(1, len(bins))]; the mean of an empty selection is NaN. -/
def trend_bin_means (z y : List ℚ) : List (Option ℚ) :=
  let bs := bins_of z
  (List.range 10).map (fun i =>
    let vals := (z.zip y).filterMap
      (fun p => if digitize bs p.1 = i + 1 then some |p.2| else none)
    if vals.length = 0 then none else some (vals.sum / (vals.length : ℚ)))

/-- trend_bin_centers = [i + dz/2 for i in bins[:-1]]. -/
def trend_bin_centers (z : List ℚ) : List ℚ :=
  ((bins_of z).take 10).map (fun e => e + dz_of z / 2)

/-! ### General indexing lemmas -/

lemma getD_map_range {α : Type} (f : ℕ → α) (n i : ℕ) (hi : i < n) (d : α) :
    ((List.range n).map f).getD i d = f i := by
  rw [List.getD_eq_getElem _ d (by simpa using hi)]
  simp

lemma getD_map {α β : Type} (f : α → β) (l : List α) (i : ℕ)
    (hi : i < l.length) (d : α) (d2 : β) :
    (l.map f).getD i d2 = f (l.getD i d) := by
  rw [List.getD_eq_getElem _ d2 (by simpa using hi), List.getD_eq_getElem _ d hi]
  simp

lemma getD_zipWith {α β γ : Type} (f : α → β → γ) (l1 : List α) (l2 : List β)
    (i : ℕ) (h1 : i < l1.length) (h2 : i < l2.length) (d1 : α) (d2 : β) (d3 : γ) :
    (List.zipWith f l1 l2).getD i d3 = f (l1.getD i d1) (l2.getD i d2) := by
  rw [List.getD_eq_getElem _ d3 (by rw [List.length_zipWith]; omega),
    List.getD_eq_getElem _ d1 h1, List.getD_eq_getElem _ d2 h2]
  simp

lemma getD_append_self {α : Type} (l : List α) (i : ℕ) (hi : i < 2 * l.length)
    (d : α) :
    (l ++ l).getD i d = l.getD (i % l.length) d := by
  have hlen : (l ++ l).length = 2 * l.length := by simp; omega
  rcases Nat.lt_or_ge i l.length with h | h
  · rw [Nat.mod_eq_of_lt h]
    rw [List.getD_eq_getElem _ d (by omega), List.getD_eq_getElem _ d h]
    simp [List.getElem_append, h]
  · have hmod : i % l.length = i - l.length := by
      have h2 : i - l.length < l.length := by omega
      conv_lhs => rw [Nat.mod_eq_sub_mod h]
      exact Nat.mod_eq_of_lt h2
    rw [hmod]
    rw [List.getD_eq_getElem _ d (by omega), List.getD_eq_getElem _ d (by omega)]
    exact List.getElem_append_right (by omega)

lemma map_getD_range_self {α : Type} (l : List α) (d : α) :
    (List.range l.length).map (fun i => l.getD i d) = l := by
  apply List.ext_getElem
  · simp
  · intro i h1 h2
    simp only [List.getElem_map, List.getElem_range]
    exact List.getD_eq_getElem l d h2

lemma validPerSpec_iff_le_threshold (ft : FileType) (c : ℕ) :
    validPerSpec ft c ↔ c ≤ det_int_threshold ft := by
  cases ft <;> simp only [validPerSpec, det_int_threshold] <;> omega

lemma portScan_le (thr : ℕ) (l : List ℕ) : portScan thr l ≤ l.length - 1 := by
  induction l with
  | nil => simp [portScan]
  | cons x xs ih =>
      cases xs with
      | nil => simp [portScan]
      | cons y rest =>
          simp only [portScan]
          split
          · simpa [Nat.succ_le_succ_iff] using ih
          · simp

/-- The forward scan stops at the first index whose code passes the
validity test when one exists before the end of the array. -/
lemma portScan_eq_of_first_valid (thr : ℕ) (l : List ℕ) (i : ℕ)
    (hi : i < l.length) (hvalid : l.getD i 0 ≤ thr)
    (hbefore : ∀ j, j < i → thr < l.getD j 0) :
    portScan thr l = i := by
  induction l generalizing i with
  | nil => simp at hi
  | cons x xs ih =>
      cases xs with
      | nil =>
          cases i with
          | zero => simp [portScan]
          | succ n => simp at hi
      | cons y rest =>
          cases i with
          | zero =>
              simp only [List.getD_cons_zero] at hvalid
              simp [portScan, Nat.not_lt.mpr hvalid]
          | succ n =>
              have hx : thr < x := by simpa using hbefore 0 (Nat.succ_pos n)
              have hrec : portScan thr (y :: rest) = n := by
                apply ih
                · simpa [Nat.succ_lt_succ_iff] using hi
                · simpa using hvalid
                · intro j hj
                  simpa using hbefore (j + 1) (by omega)
              simp [portScan, hx, hrec]

/-- When every code fails the validity test the forward scan runs to the
last index and stops there. -/
lemma portScan_eq_of_all_invalid (thr : ℕ) (l : List ℕ)
    (hall : ∀ c ∈ l, thr < c) :
    portScan thr l = l.length - 1 := by
  induction l with
  | nil => simp [portScan]
  | cons x xs ih =>
      cases xs with
      | nil => simp [portScan]
      | cons y rest =>
          have hx : thr < x := hall x (by simp)
          have hrec := ih (fun c hc => hall c (by simp [hc]))
          simp only [portScan, if_pos hx, hrec]
          simp

lemma getD_reverse (l : List ℕ) (k : ℕ) (hk : k < l.length) :
    l.reverse.getD k 0 = l.getD (l.length - 1 - k) 0 := by
  have hk' : k < l.reverse.length := by simpa using hk
  have hlen : l.length - 1 - k < l.length := by omega
  rw [List.getD_eq_getElem l.reverse 0 hk', List.getD_eq_getElem l 0 hlen]
  simp [List.getElem_reverse]

/-- The backward scan stops at the last index whose code passes the
validity test when one exists. -/
lemma idx_stbd_eq_of_last_valid (thr : ℕ) (l : List ℕ) (i : ℕ)
    (hi : i < l.length) (hvalid : l.getD i 0 ≤ thr)
    (hafter : ∀ j, i < j → j < l.length → thr < l.getD j 0) :
    idx_stbd thr l = i := by
  have hrev : portScan thr l.reverse = l.length - 1 - i := by
    apply portScan_eq_of_first_valid
    · simpa using by omega
    · rw [getD_reverse l _ (by omega)]
      have : l.length - 1 - (l.length - 1 - i) = i := by omega
      rw [this]; exact hvalid
    · intro j hj
      rw [getD_reverse l _ (by omega)]
      exact hafter (l.length - 1 - j) (by omega) (by omega)
  unfold idx_stbd
  rw [hrev]
  omega

/-- When every code fails the validity test the backward scan runs all
the way down to index 0. -/
lemma idx_stbd_eq_of_all_invalid (thr : ℕ) (l : List ℕ)
    (hall : ∀ c ∈ l, thr < c) :
    idx_stbd thr l = 0 := by
  unfold idx_stbd
  rw [portScan_eq_of_all_invalid thr l.reverse (fun c hc => hall c (by simpa using hc))]
  simp

lemma idx_port_eq_of_all_invalid (thr : ℕ) (l : List ℕ)
    (hall : ∀ c ∈ l, thr < c) :
    idx_port thr l = l.length - 1 :=
  portScan_eq_of_all_invalid thr l hall

/-- C1: for a non-empty detection-code array, the port index is found by
the forward while-invalid scan (it stops at the first code passing the
validity test of the format), the starboard index by the backward scan
(it stops at the last such code); an all-valid ping yields beam 0 and
beam N-1, and a ping with exactly one valid beam k yields k on both
sides. -/
theorem soundingExtractor_outer_beam_scan (ft : FileType) (codes : List ℕ)
    (hne : codes ≠ []) :
    (∀ i, i < codes.length → validPerSpec ft (codes.getD i 0) →
      (∀ j, j < i → ¬ validPerSpec ft (codes.getD j 0)) →
      idx_port (det_int_threshold ft) codes = i) ∧
    (∀ i, i < codes.length → validPerSpec ft (codes.getD i 0) →
      (∀ j, i < j → j < codes.length → ¬ validPerSpec ft (codes.getD j 0)) →
      idx_stbd (det_int_threshold ft) codes = i) ∧
    ((∀ c ∈ codes, validPerSpec ft c) →
      idx_port (det_int_threshold ft) codes = 0 ∧
      idx_stbd (det_int_threshold ft) codes = codes.length - 1) ∧
    (∀ k, k < codes.length → validPerSpec ft (codes.getD k 0) →
      (∀ j, j < codes.length → j ≠ k → ¬ validPerSpec ft (codes.getD j 0)) →
      idx_port (det_int_threshold ft) codes = k ∧
      idx_stbd (det_int_threshold ft) codes = k) := by
  have hmem : ∀ i, i < codes.length → codes.getD i 0 ∈ codes := by
    intro i hi
    rw [List.getD_eq_getElem codes 0 hi]
    exact codes.getElem_mem hi
  refine ⟨?_, ?_, ?_, ?_⟩
  · intro i hi hv hbefore
    exact portScan_eq_of_first_valid _ codes i hi
      ((validPerSpec_iff_le_threshold ft _).mp hv)
      (fun j hj => by
        have := hbefore j hj
        rw [validPerSpec_iff_le_threshold] at this
        omega)
  · intro i hi hv hafter
    exact idx_stbd_eq_of_last_valid _ codes i hi
      ((validPerSpec_iff_le_threshold ft _).mp hv)
      (fun j h1 h2 => by
        have := hafter j h1 h2
        rw [validPerSpec_iff_le_threshold] at this
        omega)
  · intro hall
    have h0 : 0 < codes.length := List.length_pos.mpr hne
    constructor
    · exact portScan_eq_of_first_valid _ codes 0 h0
        ((validPerSpec_iff_le_threshold ft _).mp (hall _ (hmem 0 h0)))
        (fun j hj => by omega)
    · exact idx_stbd_eq_of_last_valid _ codes (codes.length - 1) (by omega)
        ((validPerSpec_iff_le_threshold ft _).mp (hall _ (hmem _ (by omega))))
        (fun j h1 h2 => by omega)
  · intro k hk hv honly
    constructor
    · exact portScan_eq_of_first_valid _ codes k hk
        ((validPerSpec_iff_le_threshold ft _).mp hv)
        (fun j hj => by
          have := honly j (by omega) (by omega)
          rw [validPerSpec_iff_le_threshold] at this
          omega)
    · exact idx_stbd_eq_of_last_valid _ codes k hk
        ((validPerSpec_iff_le_threshold ft _).mp hv)
        (fun j h1 h2 => by
          have := honly j h2 (by omega)
          rw [validPerSpec_iff_le_threshold] at this
          omega)

/-- Witness for the C1 theorem at format .kmall with codes [1, 0, 0, 1]
(valid beams 1 and 2) and at a one-valid-beam ping [9, 9, 0, 9]. -/
theorem soundingExtractor_outer_beam_scan_witness :
    idx_port (det_int_threshold .kmall) [1, 0, 0, 1] = 1 ∧
    idx_stbd (det_int_threshold .kmall) [1, 0, 0, 1] = 2 ∧
    idx_port (det_int_threshold .kmall) [9, 9, 0, 9] = 2 ∧
    idx_stbd (det_int_threshold .kmall) [9, 9, 0, 9] = 2 := by
  have h := soundingExtractor_outer_beam_scan .kmall [1, 0, 0, 1] (by decide)
  have h2 := soundingExtractor_outer_beam_scan .kmall [9, 9, 0, 9] (by decide)
  have hafter : ∀ j, 2 < j → j < ([1, 0, 0, 1] : List ℕ).length →
      ¬ validPerSpec .kmall (([1, 0, 0, 1] : List ℕ).getD j 0) := by
    intro j h1 h2
    simp only [List.length_cons, List.length_nil] at h2
    have : j = 3 := by omega
    subst this
    decide
  have honly : ∀ j, j < ([9, 9, 0, 9] : List ℕ).length → j ≠ 2 →
      ¬ validPerSpec .kmall (([9, 9, 0, 9] : List ℕ).getD j 0) := by
    intro j h1 h2
    simp only [List.length_cons, List.length_nil] at h1
    have : j = 0 ∨ j = 1 ∨ j = 3 := by omega
    rcases this with h | h | h <;> subst h <;> decide
  refine ⟨h.1 1 (by decide) (by decide) (by decide), ?_, ?_, ?_⟩
  · exact h.2.1 2 (by decide) (by decide) hafter
  · exact (h2.2.2.2 2 (by decide) (by decide) honly).1
  · exact (h2.2.2.2 2 (by decide) (by decide) honly).2

/-- C10: for a ping in which every detection code fails the validity
test, sortDetectionsCoverage still emits a record (the guard that would
skip such pings is commented out): the forward scan stops at the last
beam and the backward scan at beam 0, so the emitted port sounding comes
from beam N-1 and the stbd sounding from beam 0 (crossed indices). -/
theorem allInvalid_ping_emits_crossed_record (ft : FileType) (p : PingXYZ)
    (hne : p.det_int ≠ [])
    (hall : ∀ c ∈ p.det_int, ¬ validPerSpec ft c) :
    idx_port (det_int_threshold ft) p.det_int = p.det_int.length - 1 ∧
    idx_stbd (det_int_threshold ft) p.det_int = 0 ∧
    sortPing ft p =
      { y_port := p.across.getD (p.det_int.length - 1) 0
        y_stbd := p.across.getD 0 0
        z_port := p.depth.getD (p.det_int.length - 1) 0
        z_stbd := p.depth.getD 0 0
        bs_port := p.bs.getD (p.det_int.length - 1) 0 * bs_scale ft
        bs_stbd := p.bs.getD 0 0 * bs_scale ft
        rx_angle_port := p.angle.getD (p.det_int.length - 1) 0
        rx_angle_stbd := p.angle.getD 0 0 } := by
  have hall' : ∀ c ∈ p.det_int, det_int_threshold ft < c := by
    intro c hc
    have := hall c hc
    rw [validPerSpec_iff_le_threshold] at this
    omega
  have hp := idx_port_eq_of_all_invalid (det_int_threshold ft) p.det_int hall'
  have hs := idx_stbd_eq_of_all_invalid (det_int_threshold ft) p.det_int hall'
  refine ⟨hp, hs, ?_⟩
  unfold sortPing
  simp only [hp, hs]

/-- Witness for the C10 theorem: a two-beam .kmall ping whose codes are
all invalid emits y_port from beam 1 and y_stbd from beam 0. -/
theorem allInvalid_ping_emits_crossed_record_witness :
    sortPing .kmall ⟨[1, 2], [-50, 50], [10, 20], [3, 4], [60, -60]⟩ =
      { y_port := 50, y_stbd := -50, z_port := 20, z_stbd := 10
        bs_port := 4, bs_stbd := 3, rx_angle_port := -60, rx_angle_stbd := 60 } := by
  have h := allInvalid_ping_emits_crossed_record .kmall
    ⟨[1, 2], [-50, 50], [10, 20], [3, 4], [60, -60]⟩ (by decide) (by decide)
  rw [h.2.2]
  simp [bs_scale]

/-- C2 counterexample: one ping, both runtime angle limits 60 degrees,
buffer 0, both soundings at 70 degrees; the claim threshold 2 x 60 + 0
keeps them, the code masks them out.  Coverage: limits 200 m, soundings
at 300 m, claim threshold 400 keeps them, the code masks them out. -/
theorem runtime_buffer_threshold_counterexample :
    rtp_angle_mask [70, 70] [60] [60] 0 = [false, false] ∧
    rtp_angle_mask_claim [70, 70] [60] [60] 0 = [true, true] ∧
    rtp_cov_mask [300, 300] [200] [200] 0 = [false, false] ∧
    rtp_cov_mask_claim [300, 300] [200] [200] 0 = [true, true] := by
  refine ⟨?_, ?_, ?_, ?_⟩ <;>
    norm_num [rtp_angle_mask, rtp_angle_mask_claim, rtp_cov_mask, rtp_cov_mask_claim]

/-- C2 amended: with the runtime filters enabled and the per-ping limit
fields present, a sounding is kept exactly when its angle lies within
[-max_stbd_deg - buffer, max_port_deg + buffer] of its own ping (and
its across-track y within [-max_port_m - buffer, max_stbd_m + buffer]):
the threshold is the runtime limit itself plus the signed buffer, the
`2 *` of the source being Python list repetition that aligns the
per-ping limits with the port-then-stbd concatenated sounding list, not
a numeric doubling. -/
theorem runtime_buffer_threshold (angle_all y_all maxPortDeg maxStbdDeg
    maxPortM maxStbdM : List ℚ) (bufA bufC : ℚ) (n : ℕ)
    (hpd : maxPortDeg.length = n) (hsd : maxStbdDeg.length = n)
    (hpm : maxPortM.length = n) (hsm : maxStbdM.length = n)
    (ha : angle_all.length = 2 * n) (hy : y_all.length = 2 * n)
    (i : ℕ) (hi : i < 2 * n) :
    ((rtp_angle_mask angle_all maxPortDeg maxStbdDeg bufA).getD i false = true ↔
      (angle_all.getD i 0 ≤ maxPortDeg.getD (i % n) 0 + bufA ∧
       -(maxStbdDeg.getD (i % n) 0) - bufA ≤ angle_all.getD i 0)) ∧
    ((rtp_cov_mask y_all maxPortM maxStbdM bufC).getD i false = true ↔
      (-(maxPortM.getD (i % n) 0) - bufC ≤ y_all.getD i 0 ∧
       y_all.getD i 0 ≤ maxStbdM.getD (i % n) 0 + bufC)) := by
  have hn : 0 < n := by omega
  constructor
  · unfold rtp_angle_mask
    rw [getD_zipWith _ _ _ i (by simp; omega) (by simp; omega) false false false,
      getD_zipWith _ _ _ i (by omega) (by simp; omega) 0 0 false,
      getD_zipWith _ _ _ i (by omega) (by simp; omega) 0 0 false,
      getD_append_self _ i (by omega) 0, getD_append_self _ i (by omega) 0,
      hpd, hsd]
    simp [Bool.and_eq_true, and_comm]
  · unfold rtp_cov_mask
    rw [getD_zipWith _ _ _ i (by simp; omega) (by simp; omega) false false false,
      getD_zipWith _ _ _ i (by omega) (by simp; omega) 0 0 false,
      getD_zipWith _ _ _ i (by omega) (by simp; omega) 0 0 false,
      getD_append_self _ i (by omega) 0, getD_append_self _ i (by omega) 0,
      hpm, hsm]
    simp [Bool.and_eq_true]

/-- Witness for the amended C2 theorem: one ping with angle limits 60
and coverage limits 200; the port sounding at 50 degrees and 150 m is
kept by both masks. -/
theorem runtime_buffer_threshold_witness :
    (rtp_angle_mask [50, -50] [60] [60] 0).getD 0 false = true ∧
    (rtp_cov_mask [150, -150] [200] [200] 0).getD 0 false = true := by
  have h := runtime_buffer_threshold [50, -50] [150, -150] [60] [60] [200] [200]
    0 0 1 rfl rfl rfl rfl rfl rfl 0 (by norm_num)
  exact ⟨h.1.mpr (by norm_num), h.2.mpr (by norm_num)⟩

lemma zipWith_and_replicate_true {l : List Bool} {n : ℕ} (h : l.length ≤ n) :
    List.zipWith and l (List.replicate n true) = l := by
  induction l generalizing n with
  | nil => simp
  | cons x xs ih =>
      cases n with
      | zero => simp at h
      | succ m =>
          simp only [List.replicate_succ, List.zipWith_cons_cons,
            Bool.and_true]
          rw [ih (by simpa using h)]

/-- C9: when a runtime filter is enabled but its per-ping limit fields
are absent from the dataset, that filter keeps its all-true mask and
logs a warning instead of failing, and the combined filter index is
exactly the conjunction of the remaining terms. -/
theorem missing_runtime_fields_pass_all (rt : DetRuntime)
    (angle_all y_all : List ℚ) (bufA bufC : ℚ) (n2 : ℕ)
    (angle_idx depth_idx bs_idx real_idx : List Bool) :
    (rt.max_port_deg = none ∨ rt.max_stbd_deg = none →
      rtp_angle_filter rt angle_all bufA n2 = (List.replicate n2 true, true)) ∧
    (rt.max_port_m = none ∨ rt.max_stbd_m = none →
      rtp_cov_filter rt y_all bufC n2 = (List.replicate n2 true, true)) ∧
    ((rt.max_port_deg = none ∨ rt.max_stbd_deg = none) →
      (rt.max_port_m = none ∨ rt.max_stbd_m = none) →
      angle_idx.length = n2 → depth_idx.length = n2 → bs_idx.length = n2 →
      real_idx.length = n2 →
      filter_idx angle_idx depth_idx bs_idx
        (rtp_angle_filter rt angle_all bufA n2).1
        (rtp_cov_filter rt y_all bufC n2).1 real_idx =
      List.zipWith and
        (List.zipWith and (List.zipWith and angle_idx depth_idx) bs_idx)
        real_idx) := by
  have hA : rt.max_port_deg = none ∨ rt.max_stbd_deg = none →
      rtp_angle_filter rt angle_all bufA n2 = (List.replicate n2 true, true) := by
    intro h
    unfold rtp_angle_filter
    cases hp : rt.max_port_deg <;> cases hs : rt.max_stbd_deg
    · rfl
    · rfl
    · rfl
    · simp [hp, hs] at h
  have hC : rt.max_port_m = none ∨ rt.max_stbd_m = none →
      rtp_cov_filter rt y_all bufC n2 = (List.replicate n2 true, true) := by
    intro h
    unfold rtp_cov_filter
    cases hp : rt.max_port_m <;> cases hs : rt.max_stbd_m
    · rfl
    · rfl
    · rfl
    · simp [hp, hs] at h
  refine ⟨hA, hC, ?_⟩
  intro h1 h2 hla hld hlb hlr
  rw [hA h1, hC h2]
  unfold filter_idx
  have l1 : (List.zipWith and angle_idx depth_idx).length = n2 := by
    rw [List.length_zipWith]; omega
  have l2 : (List.zipWith and (List.zipWith and angle_idx depth_idx) bs_idx).length = n2 := by
    rw [List.length_zipWith]; omega
  rw [zipWith_and_replicate_true (by omega : (List.zipWith and (List.zipWith and angle_idx depth_idx) bs_idx).length ≤ n2)]
  rw [zipWith_and_replicate_true (by omega : (List.zipWith and (List.zipWith and angle_idx depth_idx) bs_idx).length ≤ n2)]

/-- Witness for the C9 theorem: a dataset missing all four runtime
fields leaves both runtime masks all-true and the combined filter equal
to the conjunction of the other terms. -/
theorem missing_runtime_fields_pass_all_witness :
    rtp_angle_filter ⟨none, none, none, none⟩ [50, -50] 0 2 =
      (List.replicate 2 true, true) ∧
    filter_idx [true, true] [true, false] [true, true]
      (rtp_angle_filter ⟨none, none, none, none⟩ [50, -50] 0 2).1
      (rtp_cov_filter ⟨none, none, none, none⟩ [150, -150] 0 2).1
      [true, true] =
      List.zipWith and
        (List.zipWith and (List.zipWith and [true, true] [true, false])
          [true, true]) [true, true] := by
  have h := missing_runtime_fields_pass_all ⟨none, none, none, none⟩
    [50, -50] [150, -150] 0 0 2 [true, true] [true, false] [true, true]
    [true, true]
  exact ⟨h.1 (Or.inl rfl),
    h.2.2 (Or.inl rfl) (Or.inl rfl) rfl rfl rfl rfl⟩

lemma target_lt (count : ℕ) (f : ℚ) (hf : 0 < f) (k : ℕ)
    (hk : k < arangeLen ((count : ℚ) - 1) f) :
    (k : ℚ) * f < (count : ℚ) - 1 := by
  unfold arangeLen at hk
  have h1 : (k : ℤ) < ⌈((count : ℚ) - 1) / f⌉ := Int.lt_toNat.mp hk
  have h2 : (k : ℚ) < ((count : ℚ) - 1) / f := by exact_mod_cast Int.lt_ceil.mp h1
  exact (lt_div_iff₀ hf).mp h2

lemma nearestIdx_lt_count (count : ℕ) (hc : 1 ≤ count) (x : ℚ)
    (hx : x < (count : ℚ) - 1) :
    nearestIdx x < count := by
  unfold nearestIdx
  have h1 : ⌈x - 1 / 2⌉ ≤ (count : ℤ) - 1 := by
    rw [Int.ceil_le]
    push_cast
    linarith
  omega

lemma nearestIdx_strictMono (f : ℚ) (hf : 1 < f) (a b : ℕ) (hab : a < b) :
    nearestIdx ((a : ℚ) * f) < nearestIdx ((b : ℚ) * f) := by
  unfold nearestIdx
  have hba : (a : ℚ) + 1 ≤ (b : ℚ) := by exact_mod_cast hab
  have ha0 : (0 : ℚ) ≤ (a : ℚ) := by positivity
  have h1 : ⌈(a : ℚ) * f - 1 / 2⌉ + 1 ≤ ⌈(b : ℚ) * f - 1 / 2⌉ := by
    have hstep : (a : ℚ) * f - 1 / 2 + 1 ≤ (b : ℚ) * f - 1 / 2 := by nlinarith
    calc ⌈(a : ℚ) * f - 1 / 2⌉ + 1 = ⌈(a : ℚ) * f - 1 / 2 + 1⌉ :=
          (Int.ceil_add_one _).symm
      _ ≤ ⌈(b : ℚ) * f - 1 / 2⌉ := Int.ceil_mono hstep
  have h2 : 0 < ⌈(b : ℚ) * f - 1 / 2⌉ := by
    rw [Int.lt_ceil]
    push_cast
    nlinarith
  omega

/-- C3: the effective decimation factor is max(count / max_points,
user_factor), subject to the stated conventions taken in order: a zero
max_points gives an infinite factor (with the division guarded, never
performed) under which zero points are selected, and a point count
within max_points together with a user factor at most 1 gives exactly
factor 1 and an unchanged point list. -/
theorem decimation_factor (count : ℕ) (maxPoints user : ℚ)
    (h0 : 0 ≤ maxPoints) :
    (maxPoints ≠ 0 → (maxPoints < (count : ℚ) ∨ 1 < user) →
      dec_fac count maxPoints user = some (max ((count : ℚ) / maxPoints) user)) ∧
    (maxPoints = 0 →
      dec_fac count maxPoints user = none ∧ selectIndices count none = []) ∧
    (maxPoints ≠ 0 → (count : ℚ) ≤ maxPoints → user ≤ 1 →
      dec_fac count maxPoints user = some 1 ∧
      ∀ (l : List ℚ), l.length = count →
        (selectIndices count (dec_fac count maxPoints user)).map
          (fun i => l.getD i 0) = l) := by
  refine ⟨?_, ?_, ?_⟩
  · intro hne hgt
    have hpos : 0 < maxPoints := lt_of_le_of_ne h0 (Ne.symm hne)
    have h1 : 1 ≤ max ((count : ℚ) / maxPoints) user := by
      rcases hgt with h | h
      · exact le_max_of_le_left (le_of_lt ((one_lt_div hpos).mpr h))
      · exact le_max_of_le_right (le_of_lt h)
    simp only [dec_fac, dec_fac_default, dec_fac_user, if_neg hne]
    rw [← max_assoc, max_eq_left h1]
  · intro hz
    constructor
    · unfold dec_fac dec_fac_default
      rw [if_pos hz]
    · rfl
  · intro hne hle huser
    have hpos : 0 < maxPoints := lt_of_le_of_ne h0 (Ne.symm hne)
    have hfac : dec_fac count maxPoints user = some 1 := by
      have hd : (count : ℚ) / maxPoints ≤ 1 := (div_le_one hpos).mpr hle
      have hu : max user 1 = 1 := max_eq_right huser
      simp only [dec_fac, dec_fac_default, dec_fac_user, if_neg hne]
      rw [hu, max_eq_right hd]
    refine ⟨hfac, ?_⟩
    intro l hl
    rw [hfac]
    simp only [selectIndices]
    rw [if_neg (lt_irrefl 1)]
    rw [← hl]
    exact map_getD_range_self l 0

/-- Witness for the C3 theorem: 100000 filtered points against a
50000-point cap give effective factor 2; a zero cap gives the infinite
factor and an empty selection; 10 points against the cap with user
factor 1 give factor 1 and an unchanged list. -/
theorem decimation_factor_witness :
    dec_fac 100000 50000 1 = some 2 ∧
    (dec_fac 3 0 1 = none ∧ selectIndices 3 none = []) ∧
    (dec_fac 10 50000 1 = some 1 ∧
      (selectIndices 10 (dec_fac 10 50000 1)).map
        (fun i => ([3, 1, 4, 1, 5, 9, 2, 6, 5, 3] : List ℚ).getD i 0) =
        [3, 1, 4, 1, 5, 9, 2, 6, 5, 3]) := by
  refine ⟨?_, ?_, ?_, ?_⟩
  · have h := (decimation_factor 100000 50000 1 (by norm_num)).1
      (by norm_num) (Or.inl (by norm_num))
    rw [h]
    norm_num
  · exact (decimation_factor 3 0 1 (by norm_num)).2.1 rfl
  · exact ((decimation_factor 10 50000 1 (by norm_num)).2.2
      (by norm_num) (by norm_num) (by norm_num)).1
  · exact ((decimation_factor 10 50000 1 (by norm_num)).2.2
      (by norm_num) (by norm_num) (by norm_num)).2 _ rfl

/-- C7: for at least one point and a finite effective factor above 1,
the selected indices are strictly increasing (hence unique and
order-preserving), all lie within [0, count), and each one is the
nearest integer index to one of the evenly spaced target positions
k * factor, which all lie in [0, count - 1). -/
theorem decimation_selection (count : ℕ) (f : ℚ) (hc : 1 ≤ count)
    (hf : 1 < f) :
    List.Pairwise (· < ·) (selectIndicesF count f) ∧
    List.Nodup (selectIndicesF count f) ∧
    (∀ i ∈ selectIndicesF count f, i < count) ∧
    selectIndicesF count f = (idx_dec count f).map nearestIdx ∧
    (∀ k, k < (idx_dec count f).length →
      (idx_dec count f).getD k 0 = (k : ℚ) * f ∧
      0 ≤ (k : ℚ) * f ∧ (k : ℚ) * f < (count : ℚ) - 1) := by
  have hf0 : 0 < f := by linarith
  have hpw : List.Pairwise (· < ·) (selectIndicesF count f) := by
    unfold selectIndicesF idx_dec
    rw [List.map_map, List.pairwise_map]
    exact (List.pairwise_lt_range _).imp
      (fun h => nearestIdx_strictMono f hf _ _ h)
  refine ⟨hpw, hpw.imp (fun h => Nat.ne_of_lt h), ?_, rfl, ?_⟩
  · intro i hi
    unfold selectIndicesF idx_dec at hi
    rw [List.map_map, List.mem_map] at hi
    obtain ⟨k, hk, rfl⟩ := hi
    rw [List.mem_range] at hk
    exact nearestIdx_lt_count count hc _ (target_lt count f hf0 k hk)
  · intro k hk
    unfold idx_dec at hk
    rw [List.length_map, List.length_range] at hk
    refine ⟨?_, by positivity, target_lt count f hf0 k hk⟩
    unfold idx_dec
    exact getD_map_range _ _ _ hk 0

/-- Witness for the C7 theorem at count 10, factor 3/2: the selection
[0, 1, 3, 4, 6, 7] is strictly increasing, in range, and comes from the
targets 0, 1.5, 3, 4.5, 6, 7.5. -/
theorem decimation_selection_witness :
    List.Pairwise (· < ·) (selectIndicesF 10 (3 / 2)) ∧
    (∀ i ∈ selectIndicesF 10 (3 / 2), i < 10) :=
  ⟨(decimation_selection 10 (3 / 2) (by norm_num) (by norm_num)).1,
   (decimation_selection 10 (3 / 2) (by norm_num) (by norm_num)).2.2.1⟩

/-- C8: the per-cycle data rate bytes / time * 3600 / 1e6 is total: an
undefined or zero cycle time yields an undefined rate (the where-mask of
np.divide leaves the NaN out-value), and every entry of the rate series
is either undefined or the finite quotient; no division by zero is ever
performed. -/
theorem data_rate_never_divides_by_zero (bytes dt : List (Option ℚ))
    (i : ℕ) :
    ((ping_int_time dt).getD i none = none ∨
      (ping_int_time dt).getD i none = some 0 →
      (ping_int_dr bytes dt).getD i none = none) ∧
    ((ping_int_dr bytes dt).getD i none = none ∨
      ∃ b t, (ping_int_bytes bytes dt).getD i none = some b ∧
        (ping_int_time dt).getD i none = some t ∧ t ≠ 0 ∧
        (ping_int_dr bytes dt).getD i none =
          some (b / t * 3600 / 1000000)) := by
  rcases Nat.lt_or_ge i (ping_int_dr bytes dt).length with hi | hi
  · have hlen : (ping_int_dr bytes dt).length =
        min (ping_int_bytes bytes dt).length (ping_int_time dt).length := by
      unfold ping_int_dr
      exact List.length_zipWith _ _ _
    have hib : i < (ping_int_bytes bytes dt).length := by omega
    have hit : i < (ping_int_time dt).length := by omega
    have hdr : (ping_int_dr bytes dt).getD i none =
        (match (ping_int_bytes bytes dt).getD i none,
               (ping_int_time dt).getD i none with
         | some bv, some tv =>
             if tv = 0 then none else some (bv / tv * 3600 / 1000000)
         | _, _ => none) := by
      unfold ping_int_dr
      exact getD_zipWith _ _ _ i hib hit none none none
    constructor
    · intro h
      rw [hdr]
      rcases h with h | h <;> rw [h] <;>
        cases (ping_int_bytes bytes dt).getD i none <;> simp
    · cases hb : (ping_int_bytes bytes dt).getD i none with
      | none => left; rw [hdr, hb]
      | some bv =>
          cases ht : (ping_int_time dt).getD i none with
          | none => left; rw [hdr, hb, ht]
          | some tv =>
              by_cases htz : tv = 0
              · left; rw [hdr, hb, ht]; simp [htz]
              · right
                exact ⟨bv, tv, rfl, rfl, htz, by rw [hdr, hb, ht]; simp [htz]⟩
  · constructor
    · intro _
      exact List.getD_eq_default _ _ hi
    · left
      exact List.getD_eq_default _ _ hi

/-- Witness for the C8 theorem: two pings with equal timestamps give a
zero second time difference and thus a zero accumulated cycle time at
index 1, whose rate is undefined rather than an error. -/
theorem data_rate_never_divides_by_zero_witness :
    (ping_int_dr [some 5, some 5] [none, some 0]).getD 1 none = none := by
  apply (data_rate_never_divides_by_zero [some 5, some 5] [none, some 0] 1).1
  right
  norm_num [ping_int_time, cycleFold, idx_swath_2, dt_s_final_safe, nanSafe,
    countNone, countSome, ratioList, optMulMask, optAdd]

/-- C5 counterexample: for the two-entry rate series [0, 100] with
window length min(100, 2) = 2, the source smoothing gives [50, 100]
(window looking forward from each index) while a trailing rolling mean
gives [0, 50]; they differ at index 1. -/
theorem smoothing_window_not_trailing_counterexample :
    dr_smoothed [some 0, some 100] = [some 50, some 100] ∧
    dr_smoothed_trailing_claim [some 0, some 100] = [some 0, some 50] ∧
    dr_smoothed [some 0, some 100] ≠
      dr_smoothed_trailing_claim [some 0, some 100] := by
  refine ⟨?_, ?_, ?_⟩ <;>
    norm_num [dr_smoothed, dr_smoothed_trailing_claim, nanmean,
      List.range_succ, List.filterMap_cons, List.filterMap_nil] <;>
    simp

/-- C5 amended: the smoothed series is a forward-looking rolling mean
with window length min(100, N): the output at index i is the mean of
the defined rates among dr[i .. i+w-1] (the window truncated at the end
of the series), and a window with no defined rate yields an undefined
output rather than an error or sentinel. -/
theorem smoothing_forward_window (dr : List (Option ℚ)) (i : ℕ)
    (hi : i < dr.length) :
    (dr_smoothed dr).length = dr.length ∧
    (((dr.drop i).take (min 100 dr.length)).filterMap id = [] →
      (dr_smoothed dr).getD i none = none) ∧
    (((dr.drop i).take (min 100 dr.length)).filterMap id ≠ [] →
      (dr_smoothed dr).getD i none =
        some ((((dr.drop i).take (min 100 dr.length)).filterMap id).sum /
          ((((dr.drop i).take (min 100 dr.length)).filterMap id).length : ℚ))) := by
  have hged : (dr_smoothed dr).getD i none =
      nanmean ((dr.drop i).take (min 100 dr.length)) := by
    unfold dr_smoothed
    exact getD_map_range _ _ _ hi none
  refine ⟨by simp [dr_smoothed], ?_, ?_⟩
  · intro h
    rw [hged]
    simp only [nanmean, h]
    rfl
  · intro hne
    rw [hged]
    simp only [nanmean]
    rw [if_neg (by simpa [List.length_eq_zero] using hne)]

/-- Witness for the amended C5 theorem: the series [NaN, 4, 6] smoothed
with window 3 yields (4 + 6) / 2 = 5 at index 0. -/
theorem smoothing_forward_window_witness :
    (dr_smoothed [none, some 4, some 6]).getD 0 none = some 5 := by
  have h := (smoothing_forward_window [none, some 4, some 6] 0
    (by norm_num)).2.2 (by simp)
  rw [h]
  norm_num [List.filterMap_cons, List.filterMap_nil]

lemma getD_drop {α : Type} (l : List α) (m n : ℕ) (d : α)
    (h : m + n < l.length) :
    (l.drop m).getD n d = l.getD (m + n) d := by
  rw [List.getD_eq_getElem _ d (by rw [List.length_drop]; omega),
    List.getD_eq_getElem _ d h]
  exact List.getElem_drop l

/-- C4 counterexample: for Δt = [NaN, 10, 10, 0, 10] the claim
classifies ping 3 as second-swath (Δt[3] = 0 and Δt[2] = 10 are defined,
Δt[2] is nonzero, and 0/10 < 0.1), but the source first maps the zero
interval to NaN (dt_s_final_safe), so ping 3 is classified first-swath. -/
theorem swath2_zero_interval_counterexample :
    (idx_swath_2 [none, some 10, some 10, some 0, some 10]).getD 3 false
      = false ∧
    ([none, some 10, some 10, some 0, some 10] :
       List (Option ℚ)).getD 2 none = some 10 ∧
    ([none, some 10, some 10, some 0, some 10] :
       List (Option ℚ)).getD 3 none = some 0 ∧
    (10 : ℚ) ≠ 0 ∧ (0 : ℚ) / 10 < 1 / 10 := by
  refine ⟨?_, rfl, rfl, by norm_num, by norm_num⟩
  norm_num [idx_swath_2, dt_s_final_safe, nanSafe, countNone, countSome,
    ratioList, List.countP_cons]

/-- C4 amended: provided at most half of the entries of the
zero/negative-masked Δt series are undefined (otherwise the source
first fills the gaps by linear interpolation), the ping at index i >= 1
is classified second-swath-of-cycle exactly when Δt[i] and Δt[i-1] are
both defined and positive and Δt[i]/Δt[i-1] < 0.1; all other pings are
first-swath-of-cycle. -/
theorem swath2_classification (dt : List (Option ℚ))
    (hnan : 2 * countNone (nanSafe dt) ≤ (nanSafe dt).length)
    (i : ℕ) (h1 : 1 ≤ i) (hi : i < dt.length) :
    ((idx_swath_2 dt).getD i false = true ↔
      ∃ a b, dt.getD (i - 1) none = some a ∧ dt.getD i none = some b ∧
        0 < a ∧ 0 < b ∧ b / a < 1 / 10) := by
  obtain ⟨n, rfl⟩ : ∃ n, i = n + 1 := ⟨i - 1, by omega⟩
  simp only [Nat.add_sub_cancel]
  have hsafe : dt_s_final_safe dt = nanSafe dt := by
    unfold dt_s_final_safe
    exact if_neg (fun h => absurd h.1 (by omega))
  have hslen : (nanSafe dt).length = dt.length := by simp [nanSafe]
  have hrlen : (ratioList (nanSafe dt)).length = dt.length - 1 := by
    unfold ratioList
    rw [List.length_zipWith, List.length_drop]
    omega
  have hn : n < dt.length - 1 := by omega
  have hL : (idx_swath_2 dt).getD (n + 1) false =
      (fun o => match o with
        | some r => decide (r < 1 / 10)
        | none => false) ((ratioList (nanSafe dt)).getD n none) := by
    unfold idx_swath_2
    rw [hsafe, List.getD_cons_succ]
    exact getD_map _ _ n (by omega) none false
  have hR : (ratioList (nanSafe dt)).getD n none =
      (fun next prev => match next, prev with
        | some nv, some pv => if pv = 0 then none else some (nv / pv)
        | _, _ => none)
        ((nanSafe dt).getD (n + 1) none) ((nanSafe dt).getD n none) := by
    unfold ratioList
    rw [getD_zipWith _ _ _ n (by rw [List.length_drop]; omega) (by omega)
      none none none]
    rw [getD_drop _ 1 n none (by omega), Nat.add_comm 1 n]
  have hchain : ∀ j, j < dt.length → (nanSafe dt).getD j none =
      (fun o => match o with
        | some x => if x ≤ 0 then none else some x
        | none => none) (dt.getD j none) := by
    intro j hj
    unfold nanSafe
    exact getD_map _ _ j hj none none
  rw [hL, hR, hchain n (by omega), hchain (n + 1) (by omega)]
  cases hA : dt.getD n none with
  | none =>
      simp only []
      constructor
      · intro h
        cases hB : dt.getD (n + 1) none <;> rw [hB] at h <;> simp at h
      · rintro ⟨a, b, h2, h3, h4, h5, h6⟩
        simp at h2
  | some a =>
      by_cases ha : a ≤ 0
      · simp only [if_pos ha]
        constructor
        · intro h
          cases hB : dt.getD (n + 1) none <;> rw [hB] at h <;> simp at h
        · rintro ⟨a2, b, h2, h3, h4, h5, h6⟩
          rw [Option.some_inj] at h2
          subst h2
          linarith
      · have ha0 : 0 < a := by linarith
        have hane : a ≠ 0 := ne_of_gt ha0
        simp only [if_neg ha]
        cases hB : dt.getD (n + 1) none with
        | none =>
            simp only []
            constructor
            · intro h; simp at h
            · rintro ⟨a2, b, h2, h3, h4, h5, h6⟩
              simp at h3
        | some b =>
            by_cases hb : b ≤ 0
            · simp only [if_pos hb]
              constructor
              · intro h; simp at h
              · rintro ⟨a2, b2, h2, h3, h4, h5, h6⟩
                rw [Option.some_inj] at h3
                subst h3
                linarith
            · have hb0 : 0 < b := by linarith
              simp only [if_neg hb, if_neg hane]
              constructor
              · intro h
                simp only [decide_eq_true_eq] at h
                exact ⟨a, b, rfl, rfl, ha0, hb0, h⟩
              · rintro ⟨a2, b2, h2, h3, h4, h5, h6⟩
                rw [Option.some_inj] at h2 h3
                subst h2
                subst h3
                simp only [decide_eq_true_eq]
                exact h6

/-- Witness for the amended C4 theorem at the Δt series of the spec,
[NaN, 10, 10, 0.5, 10]: ping 3 (ratio 0.05) is second-swath. -/
theorem swath2_classification_witness :
    (idx_swath_2 [none, some 10, some 10, some (1 / 2), some 10]).getD 3
      false = true := by
  apply (swath2_classification [none, some 10, some 10, some (1 / 2), some 10]
    (by norm_num [nanSafe, countNone, List.countP_cons]) 3
    (by norm_num) (by norm_num)).mpr
  exact ⟨10, 1 / 2, rfl, rfl, by norm_num, by norm_num, by norm_num⟩

lemma getD_take {α : Type} (l : List α) (m i : ℕ) (d : α) (him : i < m)
    (hil : i < l.length) :
    (l.take m).getD i d = l.getD i d := by
  rw [List.getD_eq_getElem _ d (by rw [List.length_take]; omega),
    List.getD_eq_getElem _ d hil]
  exact List.getElem_take l

lemma npDiff_linspace11 (a b : ℚ) :
    npDiff (linspace11 a b) = List.replicate 10 ((b - a) / 10) := by
  apply List.ext_getElem
  · simp [npDiff, linspace11]
  · intro i h1 h2
    have hi : i < 10 := by simpa [npDiff, linspace11] using h1
    have hlen : (linspace11 a b).length = 11 := by simp [linspace11]
    simp only [npDiff]
    rw [List.getElem_zipWith]
    rw [List.getElem_replicate]
    have hd : (linspace11 a b).drop 1 = (linspace11 a b).drop 1 := rfl
    rw [List.getElem_drop]
    simp only [linspace11, List.getElem_map, List.getElem_range]
    push_cast
    ring

lemma dz_of_eq (z : List ℚ) : dz_of z = (pyMax z - pyMin z) / 10 := by
  unfold dz_of bins_of
  rw [npDiff_linspace11]
  simp [List.sum_replicate]
  ring

lemma sum_of_const (l : List ℚ) (c : ℚ) (h : ∀ x ∈ l, x = c) :
    l.sum = (l.length : ℚ) * c := by
  induction l with
  | nil => simp
  | cons x xs ih =>
      rw [List.sum_cons, ih (fun v hv => h v (by simp [hv])),
        h x (by simp)]
      simp only [List.length_cons]
      push_cast
      ring

/-- C6: the coverage trend splits [min z, max z] into 10 equal bins via
11 linearly spaced edges, each bin center sits half a bin width above
its lower edge, and for every nonempty filtered set with |y| constantly
100 and z spanning [0, 1000], every non-empty bin reports mean absolute
width 100. -/
theorem coverage_trend_bins (z y : List ℚ) (hz : z ≠ [])
    (hlen : y.length = z.length) :
    (bins_of z).length = 11 ∧
    (∀ i, i < 11 → (bins_of z).getD i 0 =
      pyMin z + (pyMax z - pyMin z) * (i : ℚ) / 10) ∧
    dz_of z = (pyMax z - pyMin z) / 10 ∧
    (∀ i, i < 10 → (trend_bin_centers z).getD i 0 =
      (bins_of z).getD i 0 + (pyMax z - pyMin z) / 20) ∧
    ((∀ v ∈ y, |v| = 100) → pyMin z = 0 → pyMax z = 1000 →
      ∀ i, i < 10 → (trend_bin_means z y).getD i none ≠ none →
        (trend_bin_means z y).getD i none = some 100) := by
  have hblen : (bins_of z).length = 11 := by simp [bins_of, linspace11]
  refine ⟨hblen, ?_, dz_of_eq z, ?_, ?_⟩
  · intro i hi
    unfold bins_of linspace11
    exact getD_map_range _ _ _ hi 0
  · intro i hi
    unfold trend_bin_centers
    rw [getD_map _ _ i (by rw [List.length_take]; omega) 0 0]
    rw [getD_take _ _ _ _ hi (by omega)]
    rw [dz_of_eq]
    ring
  · intro hy _ _ i hi hne
    have hmean : (trend_bin_means z y).getD i none =
        (fun i : ℕ =>
          if ((z.zip y).filterMap (fun p =>
            if digitize (bins_of z) p.1 = i + 1 then some |p.2| else none)).length = 0
          then none
          else some (((z.zip y).filterMap (fun p =>
              if digitize (bins_of z) p.1 = i + 1 then some |p.2| else none)).sum /
            (((z.zip y).filterMap (fun p =>
              if digitize (bins_of z) p.1 = i + 1 then some |p.2| else none)).length : ℚ))) i := by
      unfold trend_bin_means
      exact getD_map_range _ _ _ hi none
    rw [hmean] at hne ⊢
    simp only [] at hne ⊢
    set vals := (z.zip y).filterMap (fun p =>
      if digitize (bins_of z) p.1 = i + 1 then some |p.2| else none) with hvals
    have hvlen : vals.length ≠ 0 := by
      intro h
      rw [if_pos h] at hne
      exact hne rfl
    rw [if_neg hvlen] at hne ⊢
    have hconst : ∀ x ∈ vals, x = 100 := by
      intro x hx
      rw [hvals, List.mem_filterMap] at hx
      obtain ⟨p, hp, hpx⟩ := hx
      by_cases hdig : digitize (bins_of z) p.1 = i + 1
      · rw [if_pos hdig, Option.some_inj] at hpx
        rw [← hpx]
        exact hy p.2 (List.of_mem_zip hp).2
      · rw [if_neg hdig] at hpx
        exact absurd hpx (Option.noConfusion)
    rw [sum_of_const vals 100 hconst, mul_comm, mul_div_assoc,
      div_self (by exact_mod_cast hvlen), mul_one]

/-- Witness for the C6 theorem: z = [0, 1000, 500] and y = [100, -100,
100]; bin 1 (containing z = 0) is non-empty and reports mean 100, and
its center sits at 50. -/
theorem coverage_trend_bins_witness :
    (trend_bin_means [0, 1000, 500] [100, -100, 100]).getD 0 none =
      some 100 ∧
    (trend_bin_centers [0, 1000, 500]).getD 0 0 =
      (bins_of [0, 1000, 500]).getD 0 0 +
        (pyMax [0, 1000, 500] - pyMin [0, 1000, 500]) / 20 := by
  have h := coverage_trend_bins [0, 1000, 500] [100, -100, 100]
    (by simp) rfl
  constructor
  · apply h.2.2.2.2
    · intro v hv
      simp only [List.mem_cons, List.not_mem_nil, or_false] at hv
      rcases hv with rfl | rfl | rfl <;> norm_num
    · norm_num [pyMin]
    · norm_num [pyMax]
    · norm_num
    · norm_num [trend_bin_means, bins_of, linspace11, pyMin, pyMax,
        digitize, List.countP_cons, List.filterMap_cons, List.range_succ]
      exact Option.some_ne_none _
  · exact h.2.2.2.1 0 (by norm_num)

end SwathCoverage
